import Mathlib

/-!
Verification of the `timescale-usage` worker (`pkg/worker/worker.go`).

The worker measures the approximate on-disk size of every hypertable and
continuous-aggregate view, computes a bytes-per-day growth rate from the
object's earliest `time` value, upserts a row in the `usage` table, mirrors
the size into a Prometheus gauge, and finally deletes `usage` rows whose
object vanished from the catalog.  `Start` drives this either once (no
interval configured) or on a ticker until the context is cancelled.

Shallow embedding conventions:
* Timestamps and durations are rationals counted in nanoseconds (Go's
  `time.Time` / `time.Duration` resolution); `float64` arithmetic on sizes
  and day counts is modelled by exact rational arithmetic.
* Database interaction is modelled by passing the outcome of each query or
  exec explicitly: a `RowInput` carries what one iteration of the
  `rows.Next()` loop observes, a `CycleInput` carries everything one call
  of `Worker.run` observes, a `LoopEvent` is one resolution of the
  `select` in `Start`.
* The durable `usage` table is a list of rows with `"table"` as primary
  key; the Prometheus gauge vector is an association list from label to
  value.
-/

/-- A database error, identified by its message text
(Go's `err.Error()` string). -/
structure PgError where
  msg : String
deriving DecidableEq

/-- Does the first character list start with the second? -/
def leadsWith : List Char → List Char → Bool
  | _, [] => true
  | [], _ :: _ => false
  | c :: cs, p :: ps => p == c && leadsWith cs ps

/-- Does the pattern occur as a contiguous run inside the text? -/
def occursIn (text pat : List Char) : Bool :=
  match text with
  | [] => leadsWith [] pat
  | _ :: cs => leadsWith text pat || occursIn cs pat

/-- Go's `strings.Contains s pat`: `pat` occurs as a substring of `s`. -/
def containsSubstring (s pat : String) : Bool :=
  occursIn s.toList pat.toList

/-- `errIsTableDoesNotExist` from worker.go: the error message mentions
SQLSTATE 42P01 (undefined table). -/
def errIsTableDoesNotExist (e : PgError) : Bool :=
  containsSubstring e.msg "SQLSTATE 42P01"

/-- One row of the durable `usage` table:
`usage("table" TEXT PRIMARY KEY, bytes, updated_at, bytes_per_day)`. -/
structure UsageRecord where
  table : String
  bytes : Int
  updated_at : ℚ
  bytes_per_day : ℚ
deriving DecidableEq

/-- The state the worker mutates: the durable `usage` table and the
in-memory `timescale_table_size_bytes` gauge vector (label ↦ value). -/
structure WorkerState where
  usage : List UsageRecord
  metrics : List (String × Int)
deriving DecidableEq

/-- The SQL `INSERT ... ON CONFLICT ("table") DO UPDATE SET bytes, updated_at,
bytes_per_day`: if a row with the key exists it is overwritten (every
non-key column is assigned, and the key column already agrees), otherwise
the row is appended. -/
def upsertRow (rows : List UsageRecord) (r : UsageRecord) : List UsageRecord :=
  if rows.any (fun x => x.table == r.table) then
    rows.map (fun x => if x.table == r.table then r else x)
  else
    rows ++ [r]

/-- `bytesMetrics.WithLabelValues(table).Set(v)`: overwrite the gauge for
this label, creating it on first use. -/
def setMetric (m : List (String × Int)) (name : String) (v : Int) :
    List (String × Int) :=
  if m.any (fun p => p.1 == name) then
    m.map (fun p => if p.1 == name then (name, v) else p)
  else
    m ++ [(name, v)]

/-- Read a gauge value back out of the association list. -/
def lookupMetric (m : List (String × Int)) (name : String) : Option Int :=
  (m.find? (fun p => p.1 == name)).map (fun p => p.2)

/-- Outcome of `SELECT time FROM schema.table ORDER BY time ASC LIMIT 1`:
a query error, `pgx.ErrNoRows`, or the earliest timestamp. -/
inductive TimeQueryResult
  | err (e : PgError)
  | noRows
  | row (t : ℚ)
deriving DecidableEq

/-- `days := now.Sub(firstDate).Hours() / 24` followed by
`if days != 0 { bytesPerDay = float64(tableSizeBytes) / days }` from
`Worker.upsert`; times are in nanoseconds, `Hours()` divides by 3600·10⁹. -/
def growthRate (tableSizeBytes : Int) (now firstDate : ℚ) : ℚ :=
  let days := (now - firstDate) / (3600 * 1000000000) / 24
  if days ≠ 0 then (tableSizeBytes : ℚ) / days else 0

/-- The tail of `Worker.upsert` once `firstDate` is settled: compute the
growth rate, run the upsert statement, and on success overwrite the gauge
with the new size.  A failing exec leaves both the table and the gauge
untouched. -/
def upsertBody (st : WorkerState) (table : String) (tableSizeBytes : Int)
    (now firstDate : ℚ) (execErr : Option PgError) :
    WorkerState × Option PgError :=
  let bytesPerDay := growthRate tableSizeBytes now firstDate
  match execErr with
  | some e => (st, some e)
  | none =>
      ({ usage := upsertRow st.usage
           { table := table, bytes := tableSizeBytes, updated_at := now,
             bytes_per_day := bytesPerDay },
         metrics := setMetric st.metrics table tableSizeBytes }, none)

/-- `Worker.upsert(schema, table, size)`.  A null approximate size counts
as zero bytes.  `firstDate` starts as `now`; a successful earliest-time
query overwrites it, `pgx.ErrNoRows` leaves it at `now`, and any other
query error is returned.  `execErr` is the outcome of the upsert exec. -/
def upsert (st : WorkerState) (schema table : String) (size : Option Int)
    (now : ℚ) (tq : TimeQueryResult) (execErr : Option PgError) :
    WorkerState × Option PgError :=
  let tableSizeBytes : Int := size.getD 0
  match tq with
  | .err e => (st, some e)
  | .noRows => upsertBody st table tableSizeBytes now now execErr
  | .row t => upsertBody st table tableSizeBytes now t execErr

/-- What one iteration of the `rows.Next()` loop in `upsertWithQuery`
observes: the scan outcome, the scanned (schema, table, size) triple, and
the database outcomes the nested `upsert` call will see. -/
structure RowInput where
  scanErr : Option PgError
  schema : String
  table : String
  size : Option Int
  timeQuery : TimeQueryResult
  execErr : Option PgError
deriving DecidableEq

/-- Observable actions of one cycle: an upsert attempt on an object, the
"Table ... seems to no longer exist" warning, and the reconciliation
DELETE statement. -/
inductive Event
  | attempt (table : String)
  | warn (table : String)
  | deleteStmt
deriving DecidableEq

/-- Recognize an upsert attempt in a trace. -/
def Event.isAttempt : Event → Bool
  | .attempt _ => true
  | _ => false

/-- Recognize the reconciliation delete statement in a trace. -/
def Event.isDelete : Event → Bool
  | .deleteStmt => true
  | _ => false

/-- Result of running part of a cycle: the state reached, the trace of
observable events, and the error returned (`none` = Go `nil`). -/
structure CycleOutcome where
  state : WorkerState
  events : List Event
  error : Option PgError
deriving DecidableEq

/-- The `rows.Next()` loop of `Worker.upsertWithQuery`: scan each row
(a scan error aborts), upsert it; an upsert error for a table that no
longer exists logs a warning and continues, any other upsert error
aborts the loop with that error. -/
def upsertWithQuery (st : WorkerState) (now : ℚ) :
    List RowInput → CycleOutcome
  | [] => { state := st, events := [], error := none }
  | r :: rest =>
    match r.scanErr with
    | some e => { state := st, events := [], error := some e }
    | none =>
      match upsert st r.schema r.table r.size now r.timeQuery r.execErr with
      | (st', none) =>
          let o := upsertWithQuery st' now rest
          { o with events := .attempt r.table :: o.events }
      | (st', some e) =>
          if errIsTableDoesNotExist e then
            let o := upsertWithQuery st' now rest
            { o with events := .attempt r.table :: .warn r.table :: o.events }
          else
            { state := st', events := [.attempt r.table], error := some e }

/-- The reconciliation DELETE: remove every usage row whose `"table"` is in
neither the hypertable listing nor the continuous-aggregate listing of the
source schema; a row is kept exactly when some listing contains it. -/
def reconcile (st : WorkerState) (tables views : List String) : WorkerState :=
  { st with usage :=
      st.usage.filter (fun r => tables.contains r.table || views.contains r.table) }

/-- Equality of query outcomes is decidable (needed to evaluate concrete
cycles). -/
instance {ε α : Type} [DecidableEq ε] [DecidableEq α] : DecidableEq (Except ε α) := fun
  | .error a, .error b =>
      if h : a = b then .isTrue (by rw [h]) else .isFalse (by simp [h])
  | .error _, .ok _ => .isFalse (by simp)
  | .ok _, .error _ => .isFalse (by simp)
  | .ok a, .ok b =>
      if h : a = b then .isTrue (by rw [h]) else .isFalse (by simp [h])

/-- Everything one call of `Worker.run` observes from the database: the
current time, the two catalog queries feeding `upsertTables` and
`upsertViews`, the outcome of the reconciliation DELETE, and the catalog
listings its subqueries see. -/
structure CycleInput where
  now : ℚ
  tablesQuery : Except PgError (List RowInput)
  viewsQuery : Except PgError (List RowInput)
  deleteErr : Option PgError
  tablesCatalog : List String
  viewsCatalog : List String
deriving DecidableEq

/-- `Worker.run`: upsert all hypertables, then all continuous aggregates,
then execute the reconciliation DELETE; the first error aborts the cycle. -/
def run (st : WorkerState) (inp : CycleInput) : CycleOutcome :=
  match inp.tablesQuery with
  | .error e => { state := st, events := [], error := some e }
  | .ok trows =>
    let o1 := upsertWithQuery st inp.now trows
    match o1.error with
    | some e => { o1 with error := some e }
    | none =>
      match inp.viewsQuery with
      | .error e => { o1 with error := some e }
      | .ok vrows =>
        let o2 := upsertWithQuery o1.state inp.now vrows
        match o2.error with
        | some e => { state := o2.state, events := o1.events ++ o2.events,
                      error := some e }
        | none =>
          match inp.deleteErr with
          | some e => { state := o2.state,
                        events := o1.events ++ o2.events ++ [.deleteStmt],
                        error := some e }
          | none => { state := reconcile o2.state inp.tablesCatalog inp.viewsCatalog,
                      events := o1.events ++ o2.events ++ [.deleteStmt],
                      error := none }

/-- One resolution of the `select` in `Start`'s loop: a ticker tick (with
what the resulting cycle will observe) or context cancellation. -/
inductive LoopEvent
  | tick (inp : CycleInput)
  | cancel

/-- How the scheduler ended: clean `nil` return, an error return, or — a
model artifact — still blocked in `select` when the supplied events ran
out. -/
inductive SchedResult
  | done
  | failed (e : PgError)
  | pending
deriving DecidableEq

/-- The `for { select ... } }` loop of `Start`, paired with the number of
cycles it started: a tick runs one cycle (an error ends the loop with that
error), cancellation returns `nil` at once. -/
def schedLoop (st : WorkerState) : List LoopEvent → SchedResult × Nat
  | [] => (.pending, 0)
  | .cancel :: _ => (.done, 0)
  | .tick inp :: rest =>
    match (run st inp).error with
    | some e => (.failed e, 1)
    | none =>
      let p := schedLoop (run st inp).state rest
      (p.1, p.2 + 1)

/-- `Start`, paired with the number of cycles it started.  Connection-pool
creation and `migrate` may fail first; with no interval configured it runs
one cycle and returns its result; otherwise it parses the duration, runs
one cycle immediately, and enters the select loop. -/
def start (st : WorkerState) (connErr migrateErr : Option PgError)
    (durationEmpty : Bool) (parseErr : Option PgError)
    (first : CycleInput) (events : List LoopEvent) : SchedResult × Nat :=
  match connErr with
  | some e => (.failed e, 0)
  | none =>
    match migrateErr with
    | some e => (.failed e, 0)
    | none =>
      if durationEmpty then
        match (run st first).error with
        | some e => (.failed e, 1)
        | none => (.done, 1)
      else
        match parseErr with
        | some e => (.failed e, 0)
        | none =>
          match (run st first).error with
          | some e => (.failed e, 1)
          | none =>
            let p := schedLoop (run st first).state events
            (p.1, p.2 + 1)

/-- After an upsert the first usage row matching the key is exactly the new
row. -/
theorem upsertRow_find (rows : List UsageRecord) (r : UsageRecord) :
    (upsertRow rows r).find? (fun x => x.table == r.table) = some r := by
  unfold upsertRow
  split
  · rename_i h
    induction rows with
    | nil => simp at h
    | cons x xs ih =>
      rw [List.map_cons]
      by_cases hx : x.table = r.table
      · rw [if_pos (beq_iff_eq.mpr hx)]
        exact List.find?_cons_of_pos _ (beq_self_eq_true r.table)
      · have hb : (x.table == r.table) = false := by simp [hx]
        rw [if_neg (by simp [hb])]
        have step :
            List.find? (fun y => y.table == r.table)
                (x :: List.map (fun y => if y.table == r.table then r else y) xs) =
              List.find? (fun y => y.table == r.table)
                (List.map (fun y => if y.table == r.table then r else y) xs) :=
          List.find?_cons_of_neg _ (by simp [hb])
        rw [step]
        simp only [List.any_cons, hb, Bool.false_or] at h
        exact ih h
  · rename_i h
    induction rows with
    | nil =>
      exact List.find?_cons_of_pos _ (beq_self_eq_true r.table)
    | cons x xs ih =>
      simp only [List.any_cons, Bool.or_eq_true, not_or] at h
      rw [List.cons_append]
      have step :
          List.find? (fun y => y.table == r.table) (x :: (xs ++ [r])) =
            List.find? (fun y => y.table == r.table) (xs ++ [r]) :=
        List.find?_cons_of_neg _ (by simp [Bool.not_eq_true] at h ⊢; exact h.1)
      rw [step]
      exact ih (by simp [h.2])

/-- Every usage row that matches the upserted key after an upsert is the
new row: the overwrite installs the latest values. -/
theorem upsertRow_mem_eq (rows : List UsageRecord) (r x : UsageRecord)
    (hx : x ∈ upsertRow rows r) (hkey : x.table = r.table) : x = r := by
  unfold upsertRow at hx
  split at hx
  · rcases List.mem_map.mp hx with ⟨y, _, hy⟩
    by_cases hyt : y.table = r.table
    · rw [if_pos (beq_iff_eq.mpr hyt)] at hy
      exact hy.symm
    · rw [if_neg (by simp [hyt])] at hy
      exact absurd (hy ▸ hkey) hyt
  · rename_i h
    rcases List.mem_append.mp hx with hmem | hmem
    · exact absurd hkey (by
        intro hk
        exact h (List.any_eq_true.mpr ⟨x, hmem, beq_iff_eq.mpr hk⟩))
    · simpa using hmem

/-- Upserting the same row twice is the same as upserting it once. -/
theorem upsertRow_idem (rows : List UsageRecord) (r : UsageRecord) :
    upsertRow (upsertRow rows r) r = upsertRow rows r := by
  have hany : (upsertRow rows r).any (fun x => x.table == r.table) = true := by
    have hf := upsertRow_find rows r
    exact List.any_eq_true.mpr
      ⟨r, List.mem_of_find?_eq_some hf, beq_self_eq_true r.table⟩
  have hmemeq : ∀ x ∈ upsertRow rows r, x.table = r.table → x = r :=
    fun x hx hxt => upsertRow_mem_eq rows r x hx hxt
  set l := upsertRow rows r with hl
  unfold upsertRow
  rw [if_pos hany]
  have hfix : ∀ x ∈ l, (if x.table == r.table then r else x) = x := by
    intro x hx
    by_cases hxt : x.table = r.table
    · rw [if_pos (beq_iff_eq.mpr hxt)]
      exact (hmemeq x hx hxt).symm
    · rw [if_neg (by simp [hxt])]
  calc l.map (fun x => if x.table == r.table then r else x)
      = l.map id := List.map_congr_left hfix
    _ = l := List.map_id _

/-- With distinct keys, an upsert leaves exactly one row for the upserted
key. -/
theorem upsertRow_countP (rows : List UsageRecord) (r : UsageRecord)
    (hnd : (rows.map (fun x => x.table)).Nodup) :
    (upsertRow rows r).countP (fun x => x.table == r.table) = 1 := by
  unfold upsertRow
  split
  · rename_i h
    induction rows with
    | nil => simp at h
    | cons x xs ih =>
      have hnd' : (xs.map (fun y => y.table)).Nodup := (List.nodup_cons.mp hnd).2
      have hxnot : x.table ∉ xs.map (fun y => y.table) := (List.nodup_cons.mp hnd).1
      rw [List.map_cons]
      by_cases hx : x.table = r.table
      · rw [if_pos (beq_iff_eq.mpr hx), List.countP_cons]
        have hzero : (List.map (fun y => if y.table == r.table then r else y) xs).countP
            (fun y => y.table == r.table) = 0 := by
          apply List.countP_eq_zero.mpr
          intro a ha
          rcases List.mem_map.mp ha with ⟨y, hy, hfy⟩
          have hyt : y.table ≠ r.table := by
            intro hk
            exact hxnot (List.mem_map.mpr ⟨y, hy, (hk.trans hx.symm).symm ▸ rfl⟩)
          rw [if_neg (by simp [hyt])] at hfy
          subst hfy
          simp [hyt]
        rw [hzero]
        simp
      · rw [if_neg (by simp [hx]), List.countP_cons]
        have hpx : ((fun y => y.table == r.table) x : Bool) = false := by simp [hx]
        simp only [hpx, if_false]
        simp only [List.any_cons, Bool.or_eq_true] at h
        rcases h with h | h
        · exact absurd (beq_iff_eq.mp h) hx
        · simpa using ih hnd' h
  · rename_i h
    rw [List.countP_append]
    have hzero : rows.countP (fun y => y.table == r.table) = 0 := by
      apply List.countP_eq_zero.mpr
      intro a ha hpa
      exact h (List.any_eq_true.mpr ⟨a, ha, hpa⟩)
    rw [hzero]
    simp

/-- A failing upsert (time-query error or exec error) leaves the worker
state exactly as it was. -/
theorem upsert_err_frame (st : WorkerState) (schema table : String)
    (size : Option Int) (now : ℚ) (tq : TimeQueryResult)
    (execErr : Option PgError) (e : PgError)
    (h : (upsert st schema table size now tq execErr).2 = some e) :
    (upsert st schema table size now tq execErr).1 = st := by
  cases tq with
  | err e' => rfl
  | noRows =>
    cases execErr with
    | none => simp [upsert, upsertBody] at h
    | some e' => rfl
  | row t =>
    cases execErr with
    | none => simp [upsert, upsertBody] at h
    | some e' => rfl

/-- A successful upsert returns no error and performs the overwrite of the
usage row and the gauge; stated for both ways `firstDate` can be settled
(`pgx.ErrNoRows` and an actual earliest row). -/
theorem upsert_ok (st : WorkerState) (schema table : String)
    (size : Option Int) (now firstDate : ℚ) (tq : TimeQueryResult)
    (h : tq = .noRows ∧ firstDate = now ∨ tq = .row firstDate) :
    upsert st schema table size now tq none =
      ({ usage := upsertRow st.usage
           { table := table, bytes := size.getD 0, updated_at := now,
             bytes_per_day := growthRate (size.getD 0) now firstDate },
         metrics := setMetric st.metrics table (size.getD 0) }, none) := by
  rcases h with ⟨htq, hfd⟩ | htq <;> subst htq <;>
    cases size <;> simp [upsert, upsertBody, Option.getD] <;> try subst hfd
  all_goals rfl

/-- Overwriting one gauge never deletes another: any label present before
`setMetric` is still present afterwards. -/
theorem lookupMetric_setMetric_isSome (m : List (String × Int))
    (name other : String) (v : Int)
    (h : (lookupMetric m other).isSome = true) :
    (lookupMetric (setMetric m name v) other).isSome = true := by
  unfold lookupMetric at h ⊢
  unfold setMetric
  rcases hfind : m.find? (fun p => p.1 == other) with _ | p
  · rw [hfind] at h
    simp at h
  · have hp : (p.1 == other) = true := by simpa using List.find?_some hfind
    have hpm : p ∈ m := List.mem_of_find?_eq_some hfind
    split
    · rcases hex : (m.map (fun q => if q.1 == name then (name, v) else q)).find?
          (fun q => q.1 == other) with _ | q
      · exfalso
        have : ∀ q ∈ m.map (fun q => if q.1 == name then (name, v) else q),
            ¬((fun q => q.1 == other) q = true) := by
          simpa using List.find?_eq_none.mp hex
        by_cases hpn : (p.1 == name) = true
        · have hmem : (name, v) ∈ m.map (fun q => if q.1 == name then (name, v) else q) :=
            List.mem_map.mpr ⟨p, hpm, by rw [if_pos hpn]⟩
          exact this _ hmem (by
            simp only []
            rw [show name = p.1 from (beq_iff_eq.mp hpn).symm]
            exact hp)
        · have hmem : p ∈ m.map (fun q => if q.1 == name then (name, v) else q) :=
            List.mem_map.mpr ⟨p, hpm, by rw [if_neg hpn]⟩
          exact this _ hmem hp
      · rw [hex]
        rfl
    · rcases hex : (m ++ [(name, v)]).find? (fun q => q.1 == other) with _ | q
      · exfalso
        have : ∀ q ∈ m ++ [(name, v)], ¬((fun q => q.1 == other) q = true) := by
          simpa using List.find?_eq_none.mp hex
        exact this p (List.mem_append.mpr (Or.inl hpm)) hp
      · rw [hex]
        rfl

/-- When the row loop finishes without an aborting error, every listed row
produced exactly one upsert attempt. -/
theorem upsertWithQuery_attempts (st : WorkerState) (now : ℚ)
    (rows : List RowInput)
    (h : (upsertWithQuery st now rows).error = none) :
    (upsertWithQuery st now rows).events.countP Event.isAttempt
      = rows.length := by
  induction rows generalizing st with
  | nil => simp [upsertWithQuery]
  | cons r rest ih =>
    rcases hscan : r.scanErr with _ | e
    · rcases hu : upsert st r.schema r.table r.size now r.timeQuery r.execErr
        with ⟨st', err⟩
      cases err with
      | none =>
        simp only [upsertWithQuery, hscan, hu] at h ⊢
        simp only [List.countP_cons, Event.isAttempt, List.length_cons]
        rw [ih st' h]
        simp
      | some e =>
        by_cases h42 : errIsTableDoesNotExist e
        · simp only [upsertWithQuery, hscan, hu, h42, if_true] at h ⊢
          simp only [List.countP_cons, Event.isAttempt, List.length_cons]
          rw [ih st' h]
          simp
        · simp only [upsertWithQuery, hscan, hu, h42, if_false] at h
          simp at h
    · simp only [upsertWithQuery, hscan] at h
      simp at h

/-- The row loop never emits a reconciliation delete statement. -/
theorem upsertWithQuery_no_delete (st : WorkerState) (now : ℚ)
    (rows : List RowInput) :
    (upsertWithQuery st now rows).events.countP Event.isDelete = 0 := by
  induction rows generalizing st with
  | nil => simp [upsertWithQuery]
  | cons r rest ih =>
    rcases hscan : r.scanErr with _ | e
    · rcases hu : upsert st r.schema r.table r.size now r.timeQuery r.execErr
        with ⟨st', err⟩
      cases err with
      | none =>
        simp only [upsertWithQuery, hscan, hu]
        simp only [List.countP_cons, Event.isDelete]
        rw [ih st']
        simp
      | some e =>
        by_cases h42 : errIsTableDoesNotExist e
        · simp only [upsertWithQuery, hscan, hu, h42, if_true]
          simp only [List.countP_cons, Event.isDelete]
          rw [ih st']
          simp
        · simp only [upsertWithQuery, hscan, hu, h42, if_false]
          simp [List.countP_cons, Event.isDelete]
    · simp only [upsertWithQuery, hscan]
      rfl

/-- The growth rate is the size divided by the age expressed in fractional
days (nanoseconds over 86 400·10⁹), guarded to zero at age zero. -/
theorem growthRate_spec (s : Int) (now t0 : ℚ) :
    growthRate s now t0 =
      if (now - t0) / 86400000000000 ≠ 0 then
        (s : ℚ) / ((now - t0) / 86400000000000)
      else 0 := by
  unfold growthRate
  have hdd : (now - t0) / (3600 * 1000000000) / 24
      = (now - t0) / 86400000000000 := by
    rw [div_div]
    norm_num
  rw [hdd]

/-- A zero-size object always gets growth rate zero. -/
theorem growthRate_zero (now t0 : ℚ) : growthRate 0 now t0 = 0 := by
  simp [growthRate]

/-- An object with no age (first date equal to now) gets growth rate zero. -/
theorem growthRate_same (s : Int) (now : ℚ) : growthRate s now now = 0 := by
  simp [growthRate]

/-- C1: for every upsert with size `S`, current time `Tn = now` and first
recorded timestamp `T0 = t0` (taken from the earliest `time` value, or
`now` itself when the object has no rows), the recorded `bytes_per_day` is
`S / ((Tn − T0) in fractional days)` when that age is nonzero and exactly
`0` when it is zero (in particular for empty objects), and the upsert
returns no error (no division-by-zero fault).  The code's `float64`
division is modelled by exact rational division. -/
theorem claim_C1_bytes_per_day (st : WorkerState) (schema table : String)
    (size : Option Int) (now t0 : ℚ) :
    ((upsert st schema table size now (.row t0) none).2 = none ∧
      (upsert st schema table size now (.row t0) none).1.usage.find?
          (fun x => x.table == table) =
        some { table := table, bytes := size.getD 0, updated_at := now,
               bytes_per_day :=
                 if (now - t0) / 86400000000000 ≠ 0 then
                   ((size.getD 0 : Int) : ℚ) / ((now - t0) / 86400000000000)
                 else 0 }) ∧
    ((upsert st schema table size now .noRows none).2 = none ∧
      (upsert st schema table size now .noRows none).1.usage.find?
          (fun x => x.table == table) =
        some { table := table, bytes := size.getD 0, updated_at := now,
               bytes_per_day := 0 }) := by
  refine ⟨⟨?_, ?_⟩, ⟨?_, ?_⟩⟩
  · rw [upsert_ok st schema table size now t0 (.row t0) (Or.inr rfl)]
  · rw [upsert_ok st schema table size now t0 (.row t0) (Or.inr rfl)]
    rw [← growthRate_spec (size.getD 0) now t0]
    exact upsertRow_find st.usage
      { table := table, bytes := size.getD 0, updated_at := now,
        bytes_per_day := growthRate (size.getD 0) now t0 }
  · rw [upsert_ok st schema table size now now .noRows (Or.inl ⟨rfl, rfl⟩)]
  · rw [upsert_ok st schema table size now now .noRows (Or.inl ⟨rfl, rfl⟩)]
    rw [← growthRate_same (size.getD 0) now]
    exact upsertRow_find st.usage
      { table := table, bytes := size.getD 0, updated_at := now,
        bytes_per_day := growthRate (size.getD 0) now now }

/-- C9: when the catalog-reported approximate size is null, the upsert
records exactly zero bytes (and therefore a zero growth rate) and
proceeds without error, in both the has-rows and the no-rows case. -/
theorem claim_C9_null_size (st : WorkerState) (schema table : String)
    (now t0 : ℚ) :
    ((upsert st schema table none now (.row t0) none).2 = none ∧
      (upsert st schema table none now (.row t0) none).1.usage.find?
          (fun x => x.table == table) =
        some { table := table, bytes := 0, updated_at := now,
               bytes_per_day := 0 }) ∧
    ((upsert st schema table none now .noRows none).2 = none ∧
      (upsert st schema table none now .noRows none).1.usage.find?
          (fun x => x.table == table) =
        some { table := table, bytes := 0, updated_at := now,
               bytes_per_day := 0 }) := by
  refine ⟨⟨?_, ?_⟩, ⟨?_, ?_⟩⟩
  · rw [upsert_ok st schema table none now t0 (.row t0) (Or.inr rfl)]
  · rw [upsert_ok st schema table none now t0 (.row t0) (Or.inr rfl)]
    rw [show (none : Option Int).getD 0 = 0 from rfl, ← growthRate_zero now t0]
    exact upsertRow_find st.usage
      { table := table, bytes := 0, updated_at := now,
        bytes_per_day := growthRate 0 now t0 }
  · rw [upsert_ok st schema table none now now .noRows (Or.inl ⟨rfl, rfl⟩)]
  · rw [upsert_ok st schema table none now now .noRows (Or.inl ⟨rfl, rfl⟩)]
    rw [show (none : Option Int).getD 0 = 0 from rfl, ← growthRate_zero now now]
    exact upsertRow_find st.usage
      { table := table, bytes := 0, updated_at := now,
        bytes_per_day := growthRate 0 now now }

/-- C10: when the object's earliest `time` value lies in the future
(`now < t0`) and its size is positive, the computed age in days is
negative, the upsert succeeds with no sign check, and the recorded
`bytes_per_day` is strictly negative. -/
theorem claim_C10_negative_rate (st : WorkerState) (schema table : String)
    (now t0 : ℚ) (S : Int) (hfuture : now < t0) (hpos : 0 < S) :
    (now - t0) / 86400000000000 < 0 ∧
    (upsert st schema table (some S) now (.row t0) none).2 = none ∧
    (upsert st schema table (some S) now (.row t0) none).1.usage.find?
        (fun x => x.table == table) =
      some { table := table, bytes := S, updated_at := now,
             bytes_per_day := (S : ℚ) / ((now - t0) / 86400000000000) } ∧
    (S : ℚ) / ((now - t0) / 86400000000000) < 0 := by
  have hdays : (now - t0) / 86400000000000 < 0 := by
    apply div_neg_of_neg_of_pos
    · linarith
    · norm_num
  have hrate : (S : ℚ) / ((now - t0) / 86400000000000) < 0 := by
    apply div_neg_of_pos_of_neg
    · exact_mod_cast hpos
    · exact hdays
  refine ⟨hdays, ?_, ?_, hrate⟩
  · rw [upsert_ok st schema table (some S) now t0 (.row t0) (Or.inr rfl)]
  · rw [upsert_ok st schema table (some S) now t0 (.row t0) (Or.inr rfl)]
    rw [show (some S).getD 0 = S from rfl]
    rw [show growthRate S now t0
        = (S : ℚ) / ((now - t0) / 86400000000000) from by
      rw [growthRate_spec, if_pos (ne_of_lt hdays)]]
    exact upsertRow_find st.usage
      { table := table, bytes := S, updated_at := now,
        bytes_per_day := (S : ℚ) / ((now - t0) / 86400000000000) }

/-- Concrete check of C10: an object created one day in the future with
100 bytes gets bytes-per-day −100. -/
theorem claim_C10_witness :
    ((0 : ℚ) - 86400000000000) / 86400000000000 < 0 ∧
    (upsert ⟨[], []⟩ "public" "sensor" (some 100) 0
        (.row 86400000000000) none).2 = none ∧
    (upsert ⟨[], []⟩ "public" "sensor" (some 100) 0
        (.row 86400000000000) none).1.usage.find?
        (fun x => x.table == "sensor") =
      some { table := "sensor", bytes := 100, updated_at := 0,
             bytes_per_day :=
               (100 : ℚ) / (((0 : ℚ) - 86400000000000) / 86400000000000) } ∧
    (100 : ℚ) / (((0 : ℚ) - 86400000000000) / 86400000000000) < 0 :=
  claim_C10_negative_rate ⟨[], []⟩ "public" "sensor" 0 86400000000000 100
    (by norm_num) (by norm_num)

/-- C7: the usage-record upsert is idempotent — with the primary-key
invariant (distinct `"table"` keys), applying the same row twice leaves the
store exactly as applying it once, with exactly one record for that name,
and every record under that name holds the latest values. -/
theorem claim_C7_idempotent (rows : List UsageRecord) (r : UsageRecord)
    (hnd : (rows.map (fun x => x.table)).Nodup) :
    upsertRow (upsertRow rows r) r = upsertRow rows r ∧
    (upsertRow rows r).countP (fun x => x.table == r.table) = 1 ∧
    ∀ x ∈ upsertRow rows r, x.table = r.table → x = r :=
  ⟨upsertRow_idem rows r, upsertRow_countP rows r hnd,
    fun x hx hxt => upsertRow_mem_eq rows r x hx hxt⟩

/-- Concrete check of C7 on a store that already holds the row. -/
theorem claim_C7_witness :
    upsertRow (upsertRow [(⟨"a", 1, 0, 0⟩ : UsageRecord)] ⟨"a", 9, 3, 4⟩)
        ⟨"a", 9, 3, 4⟩ =
      upsertRow [(⟨"a", 1, 0, 0⟩ : UsageRecord)] ⟨"a", 9, 3, 4⟩ ∧
    (upsertRow [(⟨"a", 1, 0, 0⟩ : UsageRecord)] ⟨"a", 9, 3, 4⟩).countP
      (fun x => x.table == "a") = 1 ∧
    ∀ x ∈ upsertRow [(⟨"a", 1, 0, 0⟩ : UsageRecord)] ⟨"a", 9, 3, 4⟩,
      x.table = "a" → x = ⟨"a", 9, 3, 4⟩ :=
  claim_C7_idempotent [⟨"a", 1, 0, 0⟩] ⟨"a", 9, 3, 4⟩ (by simp)

/-- C6: the gauge entry for an object is overwritten with the new size
exactly when the durable upsert statement succeeds; a failing upsert
leaves the whole state (gauge included) unchanged; reconciliation never
touches the gauge; and no upsert ever removes a gauge entry. -/
theorem claim_C6_metric_snapshot (st : WorkerState) (schema table : String)
    (size : Option Int) (now t0 : ℚ) (tq : TimeQueryResult)
    (execErr : Option PgError) (e : PgError) (tables views : List String)
    (n : String) :
    ((upsert st schema table size now tq execErr).2 = some e →
      (upsert st schema table size now tq execErr).1 = st) ∧
    ((upsert st schema table size now (.row t0) none).1.metrics
      = setMetric st.metrics table (size.getD 0)) ∧
    ((upsert st schema table size now .noRows none).1.metrics
      = setMetric st.metrics table (size.getD 0)) ∧
    ((reconcile st tables views).metrics = st.metrics) ∧
    ((lookupMetric st.metrics n).isSome = true →
      (lookupMetric (upsert st schema table size now tq execErr).1.metrics
        n).isSome = true) := by
  refine ⟨upsert_err_frame st schema table size now tq execErr e, ?_, ?_, rfl, ?_⟩
  · rw [upsert_ok st schema table size now t0 (.row t0) (Or.inr rfl)]
  · rw [upsert_ok st schema table size now now .noRows (Or.inl ⟨rfl, rfl⟩)]
  · intro h
    cases tq with
    | err e' => exact h
    | noRows =>
      cases execErr with
      | some e' => exact h
      | none =>
        rw [upsert_ok st schema table size now now .noRows (Or.inl ⟨rfl, rfl⟩)]
        exact lookupMetric_setMetric_isSome st.metrics table n (size.getD 0) h
    | row t =>
      cases execErr with
      | some e' => exact h
      | none =>
        rw [upsert_ok st schema table size now t (.row t) (Or.inr rfl)]
        exact lookupMetric_setMetric_isSome st.metrics table n (size.getD 0) h

/-- Concrete check of C6: a failing upsert leaves the state unchanged and
an unrelated gauge entry survives the failed upsert. -/
theorem claim_C6_witness :
    (upsert ⟨[], [("a", 7)]⟩ "s" "t" (some 3) 0 (.err ⟨"boom"⟩) none).1
      = ⟨[], [("a", 7)]⟩ ∧
    (lookupMetric (upsert ⟨[], [("a", 7)]⟩ "s" "t" (some 3) 0
        (.err ⟨"boom"⟩) none).1.metrics "a").isSome = true :=
  ⟨(claim_C6_metric_snapshot ⟨[], [("a", 7)]⟩ "s" "t" (some 3) 0 5
      (.err ⟨"boom"⟩) none ⟨"boom"⟩ ["x"] ["y"] "a").1 rfl,
   (claim_C6_metric_snapshot ⟨[], [("a", 7)]⟩ "s" "t" (some 3) 0 5
      (.err ⟨"boom"⟩) none ⟨"boom"⟩ ["x"] ["y"] "a").2.2.2.2 (by decide)⟩

/-- C2: when an object's upsert fails inside the row loop, a vanished-table
error ("SQLSTATE 42P01") produces a warning naming the object and
processing continues with the remaining rows; any other error aborts the
loop, returning exactly that error. -/
theorem claim_C2_vanished_object (st : WorkerState) (now : ℚ) (r : RowInput)
    (rest : List RowInput) (e : PgError) (hscan : r.scanErr = none)
    (herr : (upsert st r.schema r.table r.size now r.timeQuery r.execErr).2
      = some e) :
    (errIsTableDoesNotExist e = true →
      upsertWithQuery st now (r :: rest) =
        { state := (upsertWithQuery st now rest).state,
          events := .attempt r.table :: .warn r.table ::
            (upsertWithQuery st now rest).events,
          error := (upsertWithQuery st now rest).error }) ∧
    (errIsTableDoesNotExist e = false →
      upsertWithQuery st now (r :: rest) =
        { state := st, events := [.attempt r.table], error := some e }) := by
  have hfr : (upsert st r.schema r.table r.size now r.timeQuery r.execErr).1
      = st :=
    upsert_err_frame st r.schema r.table r.size now r.timeQuery r.execErr e herr
  have hpair : upsert st r.schema r.table r.size now r.timeQuery r.execErr
      = (st, some e) := by
    have heta : upsert st r.schema r.table r.size now r.timeQuery r.execErr =
        ((upsert st r.schema r.table r.size now r.timeQuery r.execErr).1,
         (upsert st r.schema r.table r.size now r.timeQuery r.execErr).2) := rfl
    rw [heta, hfr, herr]
  constructor <;> intro h42 <;>
    simp [upsertWithQuery, hscan, hpair, h42]

/-- Concrete check of C2: a row whose earliest-time query fails with
SQLSTATE 42P01 is skipped with a warning, and the loop result is that of
the remaining (empty) row list. -/
theorem claim_C2_witness :
    upsertWithQuery ⟨[], []⟩ 0
        [⟨none, "public", "gone",
          some 5, .err ⟨"ERROR: relation does not exist (SQLSTATE 42P01)"⟩,
          none⟩] =
      { state := (upsertWithQuery ⟨[], []⟩ 0 ([] : List RowInput)).state,
        events := .attempt "gone" :: .warn "gone" ::
          (upsertWithQuery ⟨[], []⟩ 0 ([] : List RowInput)).events,
        error := (upsertWithQuery ⟨[], []⟩ 0 ([] : List RowInput)).error } :=
  (claim_C2_vanished_object ⟨[], []⟩ 0
      ⟨none, "public", "gone", some 5,
        .err ⟨"ERROR: relation does not exist (SQLSTATE 42P01)"⟩, none⟩
      [] ⟨"ERROR: relation does not exist (SQLSTATE 42P01)"⟩ rfl rfl).1
    (by decide)

/-- A cycle that returns no error took the full success path: both catalog
queries succeeded, both row loops finished without aborting, the DELETE
succeeded, and the result is the reconciled state with the two upsert
traces followed by the single delete statement. -/
theorem run_ok_shape (st : WorkerState) (inp : CycleInput)
    (h : (run st inp).error = none) :
    ∃ trows vrows, inp.tablesQuery = Except.ok trows ∧
      inp.viewsQuery = Except.ok vrows ∧ inp.deleteErr = none ∧
      (upsertWithQuery st inp.now trows).error = none ∧
      (upsertWithQuery (upsertWithQuery st inp.now trows).state inp.now
        vrows).error = none ∧
      run st inp =
        { state := reconcile (upsertWithQuery (upsertWithQuery st inp.now
              trows).state inp.now vrows).state inp.tablesCatalog
              inp.viewsCatalog,
          events := (upsertWithQuery st inp.now trows).events ++
            (upsertWithQuery (upsertWithQuery st inp.now trows).state inp.now
              vrows).events ++ [Event.deleteStmt],
          error := none } := by
  rcases htq : inp.tablesQuery with e | trows
  · unfold run at h
    rw [htq] at h
    simp at h
  · rcases ho1 : (upsertWithQuery st inp.now trows).error with _ | e
    · rcases hvq : inp.viewsQuery with e | vrows
      · unfold run at h
        rw [htq] at h
        dsimp only at h
        rw [ho1, hvq] at h
        simp at h
      · rcases ho2 : (upsertWithQuery (upsertWithQuery st inp.now trows).state
            inp.now vrows).error with _ | e
        · rcases hde : inp.deleteErr with _ | e
          · refine ⟨trows, vrows, rfl, rfl, rfl, ho1, ho2, ?_⟩
            unfold run
            rw [htq]
            dsimp only
            rw [ho1]
            dsimp only
            rw [hvq]
            dsimp only
            rw [ho2]
            dsimp only
            rw [hde]
          · unfold run at h
            rw [htq] at h
            dsimp only at h
            rw [ho1] at h
            dsimp only at h
            rw [hvq] at h
            dsimp only at h
            rw [ho2] at h
            dsimp only at h
            rw [hde] at h
            simp at h
        · unfold run at h
          rw [htq] at h
          dsimp only at h
          rw [ho1] at h
          dsimp only at h
          rw [hvq] at h
          dsimp only at h
          rw [ho2] at h
          simp at h
    · unfold run at h
      rw [htq] at h
      dsimp only at h
      rw [ho1] at h
      simp at h

/-- C4: after a cycle's reconciliation completes successfully, every
remaining usage record names an object present in the combined
hypertable + continuous-aggregate listing of the source schema. -/
theorem claim_C4_reconciliation (st : WorkerState) (inp : CycleInput)
    (h : (run st inp).error = none) :
    ∀ rec ∈ (run st inp).state.usage,
      rec.table ∈ inp.tablesCatalog ∨ rec.table ∈ inp.viewsCatalog := by
  intro rec hrec
  obtain ⟨trows, vrows, -, -, -, -, -, hshape⟩ := run_ok_shape st inp h
  rw [hshape] at hrec
  unfold reconcile at hrec
  simp only [List.mem_filter] at hrec
  rcases hrec with ⟨-, hcond⟩
  simpa using hcond

/-- Concrete check of C4: a record kept by reconciliation is in the
catalog listing. -/
theorem claim_C4_witness :
    (⟨"keep", 1, 0, 0⟩ : UsageRecord).table ∈
      (⟨0, Except.ok [], Except.ok [], none, ["keep"], []⟩ :
        CycleInput).tablesCatalog ∨
    (⟨"keep", 1, 0, 0⟩ : UsageRecord).table ∈
      (⟨0, Except.ok [], Except.ok [], none, ["keep"], []⟩ :
        CycleInput).viewsCatalog :=
  claim_C4_reconciliation ⟨[⟨"keep", 1, 0, 0⟩, ⟨"stale", 2, 0, 0⟩], []⟩
    ⟨0, Except.ok [], Except.ok [], none, ["keep"], []⟩ (by decide)
    ⟨"keep", 1, 0, 0⟩ (by decide)

/-- C5: a cycle performs its steps in the fixed order — the table upserts'
trace, then the view upserts' trace (starting from the state the table
pass left), then the single reconciliation delete on the state the view
pass left; with both listings delivered and no failure, exactly N + M
upsert attempts and at most one delete statement occur. -/
theorem claim_C5_cycle_counts (st : WorkerState) (inp : CycleInput)
    (trows vrows : List RowInput) (htq : inp.tablesQuery = Except.ok trows)
    (hvq : inp.viewsQuery = Except.ok vrows)
    (h : (run st inp).error = none) :
    ((run st inp).events =
      (upsertWithQuery st inp.now trows).events ++
        (upsertWithQuery (upsertWithQuery st inp.now trows).state inp.now
          vrows).events ++ [Event.deleteStmt] ∧
    (run st inp).state =
      reconcile (upsertWithQuery (upsertWithQuery st inp.now trows).state
        inp.now vrows).state inp.tablesCatalog inp.viewsCatalog) ∧
    (run st inp).events.countP Event.isAttempt
      = trows.length + vrows.length ∧
    (run st inp).events.countP Event.isDelete ≤ 1 := by
  obtain ⟨trows', vrows', htq', hvq', -, ho1, ho2, hshape⟩ :=
    run_ok_shape st inp h
  rw [htq] at htq'
  injection htq' with he
  subst he
  rw [hvq] at hvq'
  injection hvq' with he
  subst he
  refine ⟨⟨?_, ?_⟩, ?_, ?_⟩
  · rw [hshape]
  · rw [hshape]
  · rw [hshape]
    simp only [List.countP_append]
    rw [upsertWithQuery_attempts st inp.now trows ho1,
      upsertWithQuery_attempts _ inp.now vrows ho2]
    simp [List.countP, List.countP.go, Event.isAttempt]
  · rw [hshape]
    simp only [List.countP_append]
    rw [upsertWithQuery_no_delete, upsertWithQuery_no_delete]
    simp [List.countP, List.countP.go, Event.isDelete]

/-- Concrete check of C5: one table and one view yield two upsert attempts
and one delete statement. -/
theorem claim_C5_witness :
    (run ⟨[], []⟩ ⟨0, Except.ok [⟨none, "s", "t1", some 10, .noRows, none⟩],
        Except.ok [⟨none, "s", "v1", some 20, .noRows, none⟩], none,
        ["t1"], ["v1"]⟩).events.countP Event.isAttempt =
      [(⟨none, "s", "t1", some 10, .noRows, none⟩ : RowInput)].length +
      [(⟨none, "s", "v1", some 20, .noRows, none⟩ : RowInput)].length ∧
    (run ⟨[], []⟩ ⟨0, Except.ok [⟨none, "s", "t1", some 10, .noRows, none⟩],
        Except.ok [⟨none, "s", "v1", some 20, .noRows, none⟩], none,
        ["t1"], ["v1"]⟩).events.countP Event.isDelete ≤ 1 :=
  (claim_C5_cycle_counts ⟨[], []⟩
    ⟨0, Except.ok [⟨none, "s", "t1", some 10, .noRows, none⟩,],
      Except.ok [⟨none, "s", "v1", some 20, .noRows, none⟩], none,
      ["t1"], ["v1"]⟩ _ _ rfl rfl (by decide)).2

/-- C3: in repeating mode (interval configured, parsing fine), the
scheduler runs one cycle immediately and then one cycle per tick; a
cancellation arriving between ticks returns cleanly without starting a new
cycle; and an error from any cycle terminates the scheduler with exactly
that error. -/
theorem claim_C3_repeating (st : WorkerState) (first inp : CycleInput)
    (events rest : List LoopEvent) (e : PgError) :
    ((run st first).error = none →
      start st none none false none first events =
        ((schedLoop (run st first).state events).1,
         (schedLoop (run st first).state events).2 + 1)) ∧
    ((run st first).error = some e →
      start st none none false none first events = (.failed e, 1)) ∧
    (schedLoop st (.cancel :: rest) = (.done, 0)) ∧
    ((run st inp).error = some e →
      schedLoop st (.tick inp :: rest) = (.failed e, 1)) ∧
    ((run st inp).error = none →
      schedLoop st (.tick inp :: rest) =
        ((schedLoop (run st inp).state rest).1,
         (schedLoop (run st inp).state rest).2 + 1)) := by
  refine ⟨?_, ?_, ?_, ?_, ?_⟩
  · intro h
    simp [start, h]
  · intro h
    simp [start, h]
  · simp [schedLoop]
  · intro h
    simp [schedLoop, h]
  · intro h
    simp [schedLoop, h]

/-- Concrete check of C3: a trivial successful first cycle enters the loop
with the cycle counter at one, and a cancellation event stops it. -/
theorem claim_C3_witness :
    start ⟨[], []⟩ none none false none
        ⟨0, Except.ok [], Except.ok [], none, [], []⟩ [LoopEvent.cancel] =
      ((schedLoop (run ⟨[], []⟩
          ⟨0, Except.ok [], Except.ok [], none, [], []⟩).state
          [LoopEvent.cancel]).1,
       (schedLoop (run ⟨[], []⟩
          ⟨0, Except.ok [], Except.ok [], none, [], []⟩).state
          [LoopEvent.cancel]).2 + 1) :=
  (claim_C3_repeating ⟨[], []⟩ ⟨0, Except.ok [], Except.ok [], none, [], []⟩
    ⟨0, Except.ok [], Except.ok [], none, [], []⟩ [LoopEvent.cancel] []
    ⟨"unused"⟩).1 (by decide)

/-- C8: in one-shot mode (no interval configured), the scheduler runs
exactly one cycle and returns that cycle's result — no error when the
cycle had no failure, otherwise exactly the cycle's error. -/
theorem claim_C8_one_shot (st : WorkerState) (first : CycleInput)
    (parseErr : Option PgError) (events : List LoopEvent) (e : PgError) :
    ((run st first).error = none →
      start st none none true parseErr first events = (.done, 1)) ∧
    ((run st first).error = some e →
      start st none none true parseErr first events = (.failed e, 1)) := by
  constructor <;> intro h <;> simp [start, h]

/-- Concrete check of C8: a trivial failure-free cycle makes one-shot mode
return cleanly after exactly one cycle. -/
theorem claim_C8_witness :
    start ⟨[], []⟩ none none true none
        ⟨0, Except.ok [], Except.ok [], none, [], []⟩ [] = (.done, 1) :=
  (claim_C8_one_shot ⟨[], []⟩ ⟨0, Except.ok [], Except.ok [], none, [], []⟩
    none [] ⟨"unused"⟩).1 (by decide)
